import Mathlib

/-!
# Verification of the correlation/similarity ranking engine

Shallow embedding of `src/StockDownloader/src/utils/correlation_calculator.py`:
per-day ranking of candidate indices by absolute return difference
(`calculate_correlation_for_stock`, the day loop at lines 86-118), annual
aggregation of rank scores and valid-day counts, winner selection by minimal
average score (lines 120-136), batch processing (`process_stock_batch`,
lines 139-206) and the result merge of `update_stock_index_correlation`
(lines 270-279).

Daily return values (`real_change`) are modelled as rational numbers, dates as
natural numbers, years as integers.  Nullable columns become `Option`.
The SQLAlchemy session is modelled as the data it serves: the subject's rows
for the year, the distinct list of index symbols, and the per-date index rows.
-/

namespace CorrelationCalculator

/-- Trading dates, abstracted. -/
abbrev Date := ℕ

/-- The comparison used by `differences.sort(key=lambda x: x[1])` (line 108):
order `(symbol, difference)` pairs by the difference. -/
def diffLE (a b : String × ℚ) : Prop := a.2 ≤ b.2

instance : DecidableRel diffLE := fun a b => inferInstanceAs (Decidable (a.2 ≤ b.2))

instance : IsTotal (String × ℚ) diffLE := ⟨fun a b => le_total a.2 b.2⟩

instance : IsTrans (String × ℚ) diffLE := ⟨fun _ _ _ h h' => le_trans h h'⟩

/-- Lines 94-101: from the day's index rows, keep the indices whose
`real_change` is non-null and pair each with `abs(real_change - stock_change)`. -/
def dayDifferences (rows : List (String × Option ℚ)) (stockChange : ℚ) :
    List (String × ℚ) :=
  rows.filterMap fun p => p.2.map fun v => (p.1, |v - stockChange|)

/-- Lines 110-118: walk the sorted difference list carrying `current_score`
and `prev_diff`; a difference equal to the previous one keeps the previous
score, otherwise the score becomes the 1-based position `i + 1`. -/
def rankLoop : List (String × ℚ) → ℕ → ℕ → Option ℚ → List (String × ℕ)
  | [], _, _, _ => []
  | (s, d) :: rest, i, cur, prev =>
    let cur' := match prev with
      | some p => if d ≠ p then i + 1 else cur
      | none => cur
    (s, cur') :: rankLoop rest (i + 1) cur' (some d)

/-- One day's ranking: sort the valid differences ascending (line 108, a
stable sort, modelled by insertion sort) and assign competition ranks. -/
def dayRanks (rows : List (String × Option ℚ)) (stockChange : ℚ) :
    List (String × ℕ) :=
  rankLoop (List.insertionSort diffLE (dayDifferences rows stockChange)) 0 1 none

/-- A single in-place dictionary update `f[s] += k` (lines 116-117). -/
def bump (f : String → ℕ) (s : String) (k : ℕ) : String → ℕ :=
  fun t => if t = s then f t + k else f t

/-- One iteration of the day loop (lines 87-118) acting on the pair
(`index_scores`, `index_valid_days`): compute the day's ranking and add each
symbol's rank to its score while incrementing its valid-day count; a day with
no valid index data is skipped (line 104). -/
def dayStep (indexRows : Date → List (String × Option ℚ))
    (acc : (String → ℕ) × (String → ℕ)) (dc : Date × ℚ) :
    (String → ℕ) × (String → ℕ) :=
  if dayDifferences (indexRows dc.1) dc.2 = [] then acc
  else
    let ranks := dayRanks (indexRows dc.1) dc.2
    (ranks.foldl (fun f p => bump f p.1 p.2) acc.1,
     ranks.foldl (fun f p => bump f p.1 1) acc.2)

/-- Lines 65-68: `stock_changes`, the subject's days that carry a non-null
`real_change` (the dates iterated by the day loop), in row order. -/
def stockChanges (rows : List (Date × Option ℚ)) : List (Date × ℚ) :=
  rows.filterMap fun p => p.2.map fun v => (p.1, v)

/-- The day loop of lines 86-118, starting from the all-zero score and
valid-day maps of lines 83-84. -/
def aggregateDays (indexRows : Date → List (String × Option ℚ))
    (days : List (Date × ℚ)) : (String → ℕ) × (String → ℕ) :=
  days.foldl (dayStep indexRows) (fun _ => 0, fun _ => 0)

/-- Lines 120-126: `valid_indices`, the references with a positive valid-day
count paired with their average score, enumerated in the order of the index
symbol list (the insertion order of the score dictionary). -/
def validIndices (symbols : List String) (scores valids : String → ℕ) :
    List (String × ℚ) :=
  symbols.filterMap fun s =>
    if 0 < valids s then some (s, (scores s : ℚ) / (valids s : ℚ)) else none

/-- Line 133: Python's `min(..., key=lambda x: x[1])` — the first element of
the list attaining the minimal second component. -/
def minBySnd : List (String × ℚ) → Option (String × ℚ)
  | [] => none
  | x :: xs => some (xs.foldl (fun m y => if y.2 < m.2 then y else m) x)

/-- The data served by the database session to one
`calculate_correlation_for_stock(stock_symbol, year, db)` call: the subject's
rows in the year (lines 51-55), the distinct index symbols (lines 75-76), and
each date's index rows (lines 89-91). -/
structure CorrDB where
  stockRows : List (Date × Option ℚ)
  indexSymbols : List String
  indexRows : Date → List (String × Option ℚ)

/-- `calculate_correlation_for_stock` (lines 31-136): returns the
best-matching index (or `none`) together with the score and valid-day maps;
the three early exits of lines 57-59, 70-72 and 78-80 and the
no-common-trading-day exit of lines 128-130 return `none` and empty maps. -/
def calculate_correlation_for_stock (db : CorrDB) :
    Option String × (String → ℕ) × (String → ℕ) :=
  if db.stockRows = [] then (none, fun _ => 0, fun _ => 0)
  else if stockChanges db.stockRows = [] then (none, fun _ => 0, fun _ => 0)
  else if db.indexSymbols = [] then (none, fun _ => 0, fun _ => 0)
  else
    match minBySnd (validIndices db.indexSymbols
        (aggregateDays db.indexRows (stockChanges db.stockRows)).1
        (aggregateDays db.indexRows (stockChanges db.stockRows)).2) with
    | none => (none, fun _ => 0, fun _ => 0)
    | some m =>
      (some m.1, (aggregateDays db.indexRows (stockChanges db.stockRows)).1,
        (aggregateDays db.indexRows (stockChanges db.stockRows)).2)

/-- A row of the `stock_info` table as used by the batch loop. -/
structure StockRec where
  symbol : String
  name : String

/-- The environment of one `process_stock_batch` call: the current calendar
year (line 163) and the session's lookup of a subject-year's data, which can
raise (modelled as `Except`). -/
structure BatchEnv where
  currentYear : ℤ
  lookup : String → ℤ → Except String CorrDB

/-- The inner year loop of `process_stock_batch` (lines 161-203): future
years are skipped (lines 163-166); otherwise the store is consulted and, when
a best index exists, the result quadruple is appended (lines 169-174).  There
is no `except` clause in the source (only `try`/`finally`), so a raising
lookup propagates. -/
def processYears (env : BatchEnv) (stock : StockRec) :
    List ℤ → List (String × String × ℤ × String) →
    Except String (List (String × String × ℤ × String))
  | [], results => .ok results
  | year :: rest, results =>
    if year > env.currentYear then processYears env stock rest results
    else
      match env.lookup stock.symbol year with
      | .error e => .error e
      | .ok db =>
        match calculate_correlation_for_stock db with
        | (some best, _, _) =>
          processYears env stock rest (results ++ [(stock.symbol, stock.name, year, best)])
        | (none, _, _) => processYears env stock rest results

/-- The outer stock loop of `process_stock_batch` (lines 153-203), threading
the accumulated result list through each item's year loop; a raising year
loop aborts the remaining items (the `try` block has no `except`). -/
def processBatchAux (env : BatchEnv) :
    List (StockRec × List ℤ × Bool) → List (String × String × ℤ × String) →
    Except String (List (String × String × ℤ × String))
  | [], acc => .ok acc
  | item :: rest, acc =>
    match processYears env item.1 item.2.1 acc with
    | .error e => .error e
    | .ok acc' => processBatchAux env rest acc'

/-- `process_stock_batch` (lines 139-206): run the stock loop starting from
the empty result list (line 149). -/
def process_stock_batch (env : BatchEnv)
    (batch : List (StockRec × List ℤ × Bool)) :
    Except String (List (String × String × ℤ × String)) :=
  processBatchAux env batch []

/-- The result merge of `update_stock_index_correlation` (lines 273-276):
for each computed quadruple whose symbol exists in `stock_info`, overwrite
that stock's `index_{year}` field with the winning index.  The store is
modelled as the map from (symbol, year) to the stored field value. -/
def merge_results (stockExists : String → Bool)
    (store : String → ℤ → Option String)
    (results : List (String × String × ℤ × String)) :
    String → ℤ → Option String :=
  results.foldl
    (fun st r =>
      if stockExists r.1 then
        fun s y => if s = r.1 ∧ y = r.2.2.1 then some r.2.2.2 else st s y
      else st)
    store

/-- The part of one day's ranking credited to symbol `t` under weighting `g`
(ranks for the score map, the constant 1 for the valid-day map). -/
def contribSum (g : String × ℕ → ℕ) (t : String) (ranks : List (String × ℕ)) : ℕ :=
  (ranks.map fun p => if p.1 = t then g p else 0).sum

/-! ## Concrete test fixtures -/

/-- The worked tie example: same-day differences 0.01, 0.02, 0.02, 0.05 for
references A, B, C, D, already sorted ascending. -/
def exampleDiffs : List (String × ℚ) :=
  [("A", 0.01), ("B", 0.02), ("C", 0.02), ("D", 0.05)]

/-- A small database: one valid subject day, two indices with valid data.
On day 1 the subject moves 0.01, index I1 moves 0.02 and I2 moves 0.05,
so I1 ranks 1 and I2 ranks 2 and I1 wins. -/
def dbW : CorrDB where
  stockRows := [(1, some 0.01)]
  indexSymbols := ["I1", "I2"]
  indexRows := fun d => if d = 1 then [("I1", some 0.02), ("I2", some 0.05)] else []

/-- A database with no overlap: the only index row on the subject's valid day
is null, so no reference has a valid day in common with the subject. -/
def dbN : CorrDB where
  stockRows := [(1, some 0.01)]
  indexSymbols := ["I1"]
  indexRows := fun d => if d = 1 then [("I1", none)] else []

/-- Like `dbW` but with a third index I3 whose only row is null: I3 never
appears in any day's ranking. -/
def db8 : CorrDB where
  stockRows := [(1, some 0.01)]
  indexSymbols := ["I1", "I2", "I3"]
  indexRows := fun d =>
    if d = 1 then [("I1", some 0.02), ("I2", some 0.05), ("I3", none)] else []

/-- Index rows for the day-order fixture: two days of data for I1. -/
def iR4 : Date → List (String × Option ℚ) :=
  fun d =>
    if d = 1 then [("I1", some 0.02), ("I2", some 0.05)]
    else if d = 2 then [("I1", some 0.04)]
    else []

/-- A batch environment whose store raises exactly for subject S2. -/
def envC5 : BatchEnv where
  currentYear := 2024
  lookup := fun sym _ => if sym = "S2" then .error "boom" else .ok dbW

/-- A three-subject batch for 2023; the middle subject's lookup raises. -/
def batchC5 : List (StockRec × List ℤ × Bool) :=
  [(⟨"S1", "Stock One"⟩, [2023], false),
   (⟨"S2", "Stock Two"⟩, [2023], false),
   (⟨"S3", "Stock Three"⟩, [2023], false)]

/-- A batch whose only item requests a future year (2025 > 2024). -/
def batchC6 : List (StockRec × List ℤ × Bool) :=
  [(⟨"S1", "Stock One"⟩, [2025, 2023], false)]

/-- Index rows for the null-exclusion fixture: on day 1, I1 has data and I3
is null. -/
def iR3 : Date → List (String × Option ℚ) :=
  fun d => if d = 1 then [("I1", some 0.02), ("I3", none)] else []

/-- Two valid subject days, in ascending order. -/
def l4a : List (Date × ℚ) := [(1, 0.01), (2, 0.03)]

/-- The same two valid subject days, in the opposite order. -/
def l4b : List (Date × ℚ) := [(2, 0.03), (1, 0.01)]

/-- A previously stored winning-reference mapping. -/
def storeC7 : String → ℤ → Option String :=
  fun s y => if s = "S9" ∧ y = 2023 then some "OLD" else none

/-- Batch results that do not touch the pair (S9, 2023). -/
def resultsC7 : List (String × String × ℤ × String) :=
  [("S1", "Stock One", 2023, "I1"), ("S9", "Stock Nine", 2022, "I2")]

/-! ## Properties of the rank-assignment loop -/

/-- Invariant of the loop of lines 110-118 on a sorted suffix `l`: processing
starts at position `i` with pending score `c` and previous difference `pd`
(a lower bound for the suffix); an element whose difference still equals `pd`
receives `c`, and any element with a larger difference receives its 1-based
position in the full list, which is `i` plus the number of strictly smaller
differences in the suffix, plus one. -/
lemma rankLoop_get?_sorted (l : List (String × ℚ)) (hs : List.Pairwise diffLE l)
    (i c : ℕ) (pd : ℚ) (hpd : ∀ x ∈ l, pd ≤ x.2) (k : ℕ) (hk : k < l.length) :
    (rankLoop l i c (some pd)).get? k =
      some ((l.get ⟨k, hk⟩).1,
        if (l.get ⟨k, hk⟩).2 = pd then c
        else i + l.countP (fun x => decide (x.2 < (l.get ⟨k, hk⟩).2)) + 1) := by
  induction l generalizing i c pd k with
  | nil => exact absurd hk (by simp)
  | cons a rest ih =>
    obtain ⟨s, d⟩ := a
    have hdrest : ∀ x ∈ rest, d ≤ x.2 :=
      fun x hx => (List.pairwise_cons.mp hs).1 x hx
    have hpdd : pd ≤ d := hpd (s, d) (List.mem_cons_self _ _)
    have hrest0 : List.countP (fun x => decide (x.2 < d)) rest = 0 := by
      rw [List.countP_eq_zero]
      intro x hx
      simpa using not_lt.mpr (hdrest x hx)
    have hhead0 : List.countP (fun x => decide (x.2 < d)) ((s, d) :: rest) = 0 := by
      rw [List.countP_cons_of_neg]
      · exact hrest0
      · simp
    cases k with
    | zero =>
      by_cases hdp : d = pd
      · simp [rankLoop, hdp]
      · simp [rankLoop, hdp, hhead0]
    | succ k =>
      have hk' : k < rest.length := by simpa using hk
      have hget : ((s, d) :: rest).get ⟨k + 1, hk⟩ = rest.get ⟨k, hk'⟩ := rfl
      by_cases hdp : d = pd
      · subst hdp
        have hloop : rankLoop ((s, d) :: rest) i c (some d)
            = (s, c) :: rankLoop rest (i + 1) c (some d) := by
          simp [rankLoop]
        rw [hloop, List.get?_cons_succ,
          ih (List.Pairwise.of_cons hs) (i + 1) c d hdrest k hk', hget]
        by_cases hkd : (rest.get ⟨k, hk'⟩).2 = d
        · rw [if_pos hkd, if_pos hkd]
        · have hlt : d < (rest.get ⟨k, hk'⟩).2 :=
            lt_of_le_of_ne (hdrest _ (rest.get_mem _ _)) (Ne.symm hkd)
          rw [if_neg hkd, if_neg hkd, List.countP_cons_of_pos]
          · simp only [Option.some.injEq, Prod.mk.injEq, true_and]
            omega
          · simpa using hlt
      · have hloop : rankLoop ((s, d) :: rest) i c (some pd)
            = (s, i + 1) :: rankLoop rest (i + 1) (i + 1) (some d) := by
          simp [rankLoop, hdp]
        rw [hloop, List.get?_cons_succ,
          ih (List.Pairwise.of_cons hs) (i + 1) (i + 1) d hdrest k hk', hget]
        by_cases hkd : (rest.get ⟨k, hk'⟩).2 = d
        · have hnp : ¬(rest.get ⟨k, hk'⟩).2 = pd := by rw [hkd]; exact hdp
          have hc0 : List.countP
              (fun x => decide (x.2 < (rest.get ⟨k, hk'⟩).2))
              ((s, d) :: rest) = 0 := by
            rw [hkd]; exact hhead0
          rw [if_pos hkd, if_neg hnp, hc0]
        · have hlt : d < (rest.get ⟨k, hk'⟩).2 :=
            lt_of_le_of_ne (hdrest _ (rest.get_mem _ _)) (Ne.symm hkd)
          have hnp : ¬(rest.get ⟨k, hk'⟩).2 = pd := by
            intro h
            exact absurd (h ▸ hlt) (not_lt.mpr hpdd)
          rw [if_neg hkd, if_neg hnp, List.countP_cons_of_pos]
          · simp only [Option.some.injEq, Prod.mk.injEq, true_and]
            omega
          · simpa using hlt

/-- C1: for every day, given the references' same-day differences sorted
ascending, the rank loop assigns 1-based competition ranks: the rank of the
element at position `k` is one plus the number of strictly smaller
differences, i.e. the 1-based position of the first member of its tied group;
tied differences therefore receive the same rank.  The listed example
([0.01, 0.02, 0.02, 0.05] for A, B, C, D yielding 1, 2, 2, 4) is checked in
the witness. -/
theorem tied_differences_get_competition_rank (l : List (String × ℚ))
    (hs : List.Sorted diffLE l) (k : ℕ) (hk : k < l.length) :
    (rankLoop l 0 1 none).get? k =
      some ((l.get ⟨k, hk⟩).1,
        l.countP (fun x => decide (x.2 < (l.get ⟨k, hk⟩).2)) + 1) := by
  cases l with
  | nil => exact absurd hk (by simp)
  | cons a rest =>
    obtain ⟨s, d⟩ := a
    have hdrest : ∀ x ∈ rest, d ≤ x.2 :=
      fun x hx => (List.pairwise_cons.mp hs).1 x hx
    have hrest0 : List.countP (fun x => decide (x.2 < d)) rest = 0 := by
      rw [List.countP_eq_zero]
      intro x hx
      simpa using not_lt.mpr (hdrest x hx)
    have hhead0 : List.countP (fun x => decide (x.2 < d)) ((s, d) :: rest) = 0 := by
      rw [List.countP_cons_of_neg]
      · exact hrest0
      · simp
    have hloop : rankLoop ((s, d) :: rest) 0 1 none
        = (s, 1) :: rankLoop rest 1 1 (some d) := by
      simp [rankLoop]
    cases k with
    | zero => rw [hloop]; simp [hhead0]
    | succ k =>
      have hk' : k < rest.length := by simpa using hk
      have hget : ((s, d) :: rest).get ⟨k + 1, hk⟩ = rest.get ⟨k, hk'⟩ := rfl
      rw [hloop, List.get?_cons_succ,
        rankLoop_get?_sorted rest (List.Pairwise.of_cons hs) 1 1 d hdrest k hk', hget]
      by_cases hkd : (rest.get ⟨k, hk'⟩).2 = d
      · have hc0 : List.countP
            (fun x => decide (x.2 < (rest.get ⟨k, hk'⟩).2)) ((s, d) :: rest) = 0 := by
          rw [hkd]; exact hhead0
        rw [if_pos hkd, hc0]
      · have hlt : d < (rest.get ⟨k, hk'⟩).2 :=
          lt_of_le_of_ne (hdrest _ (rest.get_mem _ _)) (Ne.symm hkd)
        rw [if_neg hkd, List.countP_cons_of_pos]
        · simp only [Option.some.injEq, Prod.mk.injEq, true_and]
          omega
        · simpa using hlt

/-- Witness for C1 on the spec's example: the list is sorted, the full rank
assignment is A=1, B=2, C=2, D=4, and the theorem instantiated at position 2
(reference C) agrees. -/
theorem tied_differences_get_competition_rank_witness :
    List.Sorted diffLE exampleDiffs ∧
    rankLoop exampleDiffs 0 1 none = [("A", 1), ("B", 2), ("C", 2), ("D", 4)] ∧
    (rankLoop exampleDiffs 0 1 none).get? 2 =
      some ((exampleDiffs.get ⟨2, by norm_num [exampleDiffs]⟩).1,
        exampleDiffs.countP
          (fun x => decide (x.2 < (exampleDiffs.get ⟨2, by norm_num [exampleDiffs]⟩).2)) + 1) := by
  refine ⟨?_, ?_, ?_⟩
  · norm_num [exampleDiffs, List.Sorted, List.pairwise_cons, diffLE]
  · norm_num [exampleDiffs, rankLoop]
  · exact tied_differences_get_competition_rank exampleDiffs
      (by norm_num [exampleDiffs, List.Sorted, List.pairwise_cons, diffLE]) 2
      (by norm_num [exampleDiffs])

/-! ## Pointwise structure of the day-by-day aggregation -/

/-- The rank loop only re-labels the sorted list: positions keep their
symbols. -/
lemma rankLoop_map_fst (l : List (String × ℚ)) (i c : ℕ) (p : Option ℚ) :
    (rankLoop l i c p).map Prod.fst = l.map Prod.fst := by
  induction l generalizing i c p with
  | nil => rfl
  | cons a rest ih =>
    obtain ⟨s, d⟩ := a
    simp [rankLoop, ih]

/-- A symbol appearing in a day's ranking has a non-null value among the
day's rows. -/
lemma mem_dayRanks_fst (rows : List (String × Option ℚ)) (c : ℚ) (t : String)
    (ht : t ∈ (dayRanks rows c).map Prod.fst) : ∃ v : ℚ, (t, some v) ∈ rows := by
  rw [dayRanks, rankLoop_map_fst] at ht
  obtain ⟨y, hy, hyt⟩ := List.mem_map.mp ht
  have hy' : y ∈ dayDifferences rows c :=
    (List.perm_insertionSort diffLE _).mem_iff.mp hy
  obtain ⟨p, hp, hpy⟩ := List.mem_filterMap.mp hy'
  obtain ⟨p1, p2⟩ := p
  cases p2 with
  | none => simp at hpy
  | some v =>
    simp only [Option.map_some'] at hpy
    refine ⟨v, ?_⟩
    have hy2 : (p1, |v - c|) = y := Option.some.inj hpy
    have hp1 : p1 = t := by
      rw [← hy2] at hyt
      simpa using hyt
    rwa [hp1] at hp

/-- Pointwise value of the dictionary-update fold over one day's ranking. -/
lemma foldl_bump_apply (g : String × ℕ → ℕ) (ranks : List (String × ℕ))
    (f : String → ℕ) (t : String) :
    (ranks.foldl (fun f p => bump f p.1 (g p)) f) t = f t + contribSum g t ranks := by
  induction ranks generalizing f with
  | nil => simp [contribSum]
  | cons p rest ih =>
    rw [List.foldl_cons, ih]
    by_cases hpt : p.1 = t
    · simp [bump, contribSum, hpt, Nat.add_assoc]
    · have hpt' : ¬t = p.1 := fun h => hpt h.symm
      simp [bump, contribSum, hpt, hpt']

/-- One day's step adds exactly the day's rank contribution to the score map
and the day's presence contribution to the valid-day map. -/
lemma dayStep_apply (iR : Date → List (String × Option ℚ))
    (acc : (String → ℕ) × (String → ℕ)) (dc : Date × ℚ) (t : String) :
    (dayStep iR acc dc).1 t
        = acc.1 t + contribSum Prod.snd t (dayRanks (iR dc.1) dc.2) ∧
    (dayStep iR acc dc).2 t
        = acc.2 t + contribSum (fun _ => 1) t (dayRanks (iR dc.1) dc.2) := by
  unfold dayStep
  by_cases hd : dayDifferences (iR dc.1) dc.2 = []
  · have hr : dayRanks (iR dc.1) dc.2 = [] := by
      rw [dayRanks, hd]
      rfl
    rw [if_pos hd, hr]
    simp [contribSum]
  · rw [if_neg hd]
    exact ⟨foldl_bump_apply Prod.snd _ _ _, foldl_bump_apply (fun _ => 1) _ _ _⟩

/-- Pointwise value of the whole day loop: starting from any accumulator, the
final maps are the start plus the sum of the independent per-day
contributions. -/
lemma foldl_dayStep_apply (iR : Date → List (String × Option ℚ))
    (days : List (Date × ℚ)) (acc : (String → ℕ) × (String → ℕ)) (t : String) :
    (days.foldl (dayStep iR) acc).1 t
        = acc.1 t + (days.map fun dc => contribSum Prod.snd t (dayRanks (iR dc.1) dc.2)).sum ∧
    (days.foldl (dayStep iR) acc).2 t
        = acc.2 t + (days.map fun dc => contribSum (fun _ => 1) t (dayRanks (iR dc.1) dc.2)).sum := by
  induction days generalizing acc with
  | nil => simp
  | cons dc rest ih =>
    rw [List.foldl_cons]
    obtain ⟨ih1, ih2⟩ := ih (dayStep iR acc dc)
    obtain ⟨hs1, hs2⟩ := dayStep_apply iR acc dc t
    constructor
    · rw [ih1, hs1, List.map_cons, List.sum_cons]
      omega
    · rw [ih2, hs2, List.map_cons, List.sum_cons]
      omega

/-- The aggregated maps are sums of per-day contributions. -/
lemma aggregateDays_apply (iR : Date → List (String × Option ℚ))
    (days : List (Date × ℚ)) (t : String) :
    (aggregateDays iR days).1 t
        = (days.map fun dc => contribSum Prod.snd t (dayRanks (iR dc.1) dc.2)).sum ∧
    (aggregateDays iR days).2 t
        = (days.map fun dc => contribSum (fun _ => 1) t (dayRanks (iR dc.1) dc.2)).sum := by
  simpa [aggregateDays] using
    foldl_dayStep_apply iR days (fun _ => 0, fun _ => 0) t

/-- C3: a reference whose return value is null (or absent) on a day does not
appear in that day's ranking, and that day's step leaves both its cumulative
score and its valid-day count unchanged. -/
theorem null_return_excluded_from_day (iR : Date → List (String × Option ℚ))
    (d : Date) (c : ℚ) (sym : String)
    (hnull : ∀ v : ℚ, (sym, some v) ∉ iR d)
    (acc : (String → ℕ) × (String → ℕ)) :
    sym ∉ (dayRanks (iR d) c).map Prod.fst ∧
    (dayStep iR acc (d, c)).1 sym = acc.1 sym ∧
    (dayStep iR acc (d, c)).2 sym = acc.2 sym := by
  have hmem : sym ∉ (dayRanks (iR d) c).map Prod.fst := by
    intro h
    obtain ⟨v, hv⟩ := mem_dayRanks_fst (iR d) c sym h
    exact hnull v hv
  have hzero : ∀ g : String × ℕ → ℕ, contribSum g sym (dayRanks (iR d) c) = 0 := by
    intro g
    apply List.sum_eq_zero
    intro x hx
    obtain ⟨p, hp, rfl⟩ := List.mem_map.mp hx
    have hps : ¬p.1 = sym := fun he => hmem (List.mem_map.mpr ⟨p, hp, he⟩)
    rw [if_neg hps]
  obtain ⟨h1, h2⟩ := dayStep_apply iR acc (d, c) sym
  refine ⟨hmem, ?_, ?_⟩
  · rw [h1, hzero, Nat.add_zero]
  · rw [h2, hzero, Nat.add_zero]

/-- Witness for C3: on day 1 of the fixture, index I3 carries a null value;
it is absent from the day's ranking and the day's step leaves its score and
valid-day count at zero. -/
theorem null_return_excluded_from_day_witness :
    "I3" ∉ (dayRanks (iR3 1) 0.01).map Prod.fst ∧
    (dayStep iR3 (fun _ => 0, fun _ => 0) (1, 0.01)).1 "I3" = 0 ∧
    (dayStep iR3 (fun _ => 0, fun _ => 0) (1, 0.01)).2 "I3" = 0 :=
  null_return_excluded_from_day iR3 1 0.01 "I3"
    (by intro v; simp [iR3]) (fun _ => 0, fun _ => 0)

/-- C4: feeding the same set of valid subject days to the aggregation in any
order produces identical cumulative score and valid-day maps — the per-day
contributions are accumulated by commutative addition. -/
theorem day_order_does_not_matter (iR : Date → List (String × Option ℚ))
    (l₁ l₂ : List (Date × ℚ)) (h : l₁.Perm l₂) (t : String) :
    (aggregateDays iR l₁).1 t = (aggregateDays iR l₂).1 t ∧
    (aggregateDays iR l₁).2 t = (aggregateDays iR l₂).2 t := by
  obtain ⟨a1, a2⟩ := aggregateDays_apply iR l₁ t
  obtain ⟨b1, b2⟩ := aggregateDays_apply iR l₂ t
  constructor
  · rw [a1, b1]
    exact List.Perm.sum_eq (h.map _)
  · rw [a2, b2]
    exact List.Perm.sum_eq (h.map _)

/-- Witness for C4: the two-day fixture processed in both orders yields the
same score and valid-day values for I1. -/
theorem day_order_does_not_matter_witness :
    (aggregateDays iR4 l4a).1 "I1" = (aggregateDays iR4 l4b).1 "I1" ∧
    (aggregateDays iR4 l4a).2 "I1" = (aggregateDays iR4 l4b).2 "I1" :=
  day_order_does_not_matter iR4 l4a l4b
    (List.Perm.swap (2, 0.03) (1, 0.01) []) "I1"

/-! ## Ranks are positive; the score/valid-day invariant -/

/-- Every score the rank loop assigns is at least 1 (the running score starts
at 1 and is only ever replaced by a 1-based position). -/
lemma rankLoop_snd_pos (l : List (String × ℚ)) (i c : ℕ) (p : Option ℚ)
    (hc : 1 ≤ c) : ∀ q ∈ rankLoop l i c p, 1 ≤ q.2 := by
  induction l generalizing i c p with
  | nil => simp [rankLoop]
  | cons a rest ih =>
    obtain ⟨s, d⟩ := a
    intro q hq
    cases p with
    | none =>
      simp only [rankLoop, List.mem_cons] at hq
      rcases hq with rfl | hq
      · exact hc
      · exact ih (i + 1) c (some d) hc q hq
    | some pd =>
      have hc' : 1 ≤ if d ≠ pd then i + 1 else c := by
        split
        · omega
        · exact hc
      simp only [rankLoop, List.mem_cons] at hq
      rcases hq with rfl | hq
      · exact hc'
      · exact ih (i + 1) _ (some d) hc' q hq

/-- Every rank in a day's ranking is at least 1. -/
lemma dayRanks_snd_pos (rows : List (String × Option ℚ)) (c : ℚ) :
    ∀ q ∈ dayRanks rows c, 1 ≤ q.2 :=
  rankLoop_snd_pos _ 0 1 none (le_refl 1)

/-- With ranks of at least 1, a day credits a symbol with at least as much
score as presence count. -/
lemma contribSum_one_le (ranks : List (String × ℕ))
    (h : ∀ q ∈ ranks, 1 ≤ q.2) (t : String) :
    contribSum (fun _ => 1) t ranks ≤ contribSum Prod.snd t ranks := by
  unfold contribSum
  apply List.sum_le_sum
  intro q hq
  by_cases hqt : q.1 = t
  · rw [if_pos hqt, if_pos hqt]
    exact h q hq
  · rw [if_neg hqt, if_neg hqt]

/-- With positive weights, a day's contribution to a symbol vanishes exactly
when the symbol is absent from the day's ranking. -/
lemma contribSum_eq_zero_iff (g : String × ℕ → ℕ) (ranks : List (String × ℕ))
    (t : String) (hg : ∀ q ∈ ranks, 1 ≤ g q) :
    contribSum g t ranks = 0 ↔ ∀ q ∈ ranks, q.1 ≠ t := by
  unfold contribSum
  rw [List.sum_eq_zero_iff]
  constructor
  · intro h q hq hqt
    have h0 := h _ (List.mem_map.mpr ⟨q, hq, rfl⟩)
    rw [if_pos hqt] at h0
    have h1 := hg q hq
    omega
  · intro h x hx
    obtain ⟨q, hq, rfl⟩ := List.mem_map.mp hx
    rw [if_neg (h q hq)]

/-- A valid-day map that is identically zero makes every reference
ineligible. -/
lemma validIndices_zero (symbols : List String) (sc : String → ℕ) :
    validIndices symbols sc (fun _ => 0) = [] := by
  unfold validIndices
  rw [List.filterMap_eq_nil_iff]
  intro s _
  simp

/-- Case analysis of `calculate_correlation_for_stock`: either it returns
`none` with empty maps (and the selector found no eligible reference), or the
selector found a minimum `m` and the aggregated maps are returned with
`m`'s symbol. -/
lemma calculate_cases (db : CorrDB) :
    (calculate_correlation_for_stock db = (none, fun _ => 0, fun _ => 0) ∧
      minBySnd (validIndices db.indexSymbols
        (aggregateDays db.indexRows (stockChanges db.stockRows)).1
        (aggregateDays db.indexRows (stockChanges db.stockRows)).2) = none) ∨
    (∃ m, minBySnd (validIndices db.indexSymbols
        (aggregateDays db.indexRows (stockChanges db.stockRows)).1
        (aggregateDays db.indexRows (stockChanges db.stockRows)).2) = some m ∧
      calculate_correlation_for_stock db =
        (some m.1, (aggregateDays db.indexRows (stockChanges db.stockRows)).1,
          (aggregateDays db.indexRows (stockChanges db.stockRows)).2)) := by
  by_cases h1 : db.stockRows = []
  · left
    refine ⟨by simp [calculate_correlation_for_stock, h1], ?_⟩
    rw [h1]
    show minBySnd (validIndices db.indexSymbols (fun _ => 0) (fun _ => 0)) = none
    rw [validIndices_zero]
    rfl
  · by_cases h2 : stockChanges db.stockRows = []
    · left
      refine ⟨by simp [calculate_correlation_for_stock, h1, h2], ?_⟩
      rw [h2]
      show minBySnd (validIndices db.indexSymbols (fun _ => 0) (fun _ => 0)) = none
      rw [validIndices_zero]
      rfl
    · by_cases h3 : db.indexSymbols = []
      · left
        refine ⟨by simp [calculate_correlation_for_stock, h1, h2, h3], ?_⟩
        rw [h3]
        rfl
      · rcases hmin : minBySnd (validIndices db.indexSymbols
            (aggregateDays db.indexRows (stockChanges db.stockRows)).1
            (aggregateDays db.indexRows (stockChanges db.stockRows)).2) with _ | m
        · left
          exact ⟨by simp [calculate_correlation_for_stock, h1, h2, h3, hmin], rfl⟩
        · right
          exact ⟨m, rfl, by simp [calculate_correlation_for_stock, h1, h2, h3, hmin]⟩

/-- C10: in every returned pair of maps, the valid-day count never exceeds
the cumulative score, and the score of a reference is zero exactly when its
valid-day count is zero — each counted day contributes a rank of at least 1,
and the two maps are always updated together. -/
theorem score_dominates_valid_days (db : CorrDB) (t : String) :
    (calculate_correlation_for_stock db).2.2 t
        ≤ (calculate_correlation_for_stock db).2.1 t ∧
    ((calculate_correlation_for_stock db).2.1 t = 0 ↔
      (calculate_correlation_for_stock db).2.2 t = 0) := by
  have key : ∀ days : List (Date × ℚ),
      (aggregateDays db.indexRows days).2 t ≤ (aggregateDays db.indexRows days).1 t ∧
      ((aggregateDays db.indexRows days).1 t = 0 ↔
        (aggregateDays db.indexRows days).2 t = 0) := by
    intro days
    obtain ⟨ha, hb⟩ := aggregateDays_apply db.indexRows days t
    rw [ha, hb]
    constructor
    · apply List.sum_le_sum
      intro dc _
      exact contribSum_one_le _ (dayRanks_snd_pos _ _) t
    · rw [List.sum_eq_zero_iff, List.sum_eq_zero_iff]
      constructor
      · intro h x hx
        obtain ⟨dc, hdc, rfl⟩ := List.mem_map.mp hx
        rw [contribSum_eq_zero_iff _ _ _ (fun q _ => le_refl 1)]
        rw [← contribSum_eq_zero_iff Prod.snd _ _ (dayRanks_snd_pos _ _)]
        exact h _ (List.mem_map.mpr ⟨dc, hdc, rfl⟩)
      · intro h x hx
        obtain ⟨dc, hdc, rfl⟩ := List.mem_map.mp hx
        rw [contribSum_eq_zero_iff Prod.snd _ _ (dayRanks_snd_pos _ _)]
        rw [← contribSum_eq_zero_iff (fun _ => 1) _ _ (fun q _ => le_refl 1)]
        exact h _ (List.mem_map.mpr ⟨dc, hdc, rfl⟩)
  rcases calculate_cases db with ⟨hz, _⟩ | ⟨m, _, heq⟩
  · rw [hz]
    exact ⟨le_refl 0, Iff.rfl⟩
  · rw [heq]
    exact key (stockChanges db.stockRows)

/-! ## The winner selector -/

/-- Case analysis of Python's `min` fold: starting from `m`, either no later
element is strictly smaller and `m` itself is returned, or the fold returns
the first element strictly below `m` that no earlier element beats and no
later element strictly beats. -/
lemma minFold_cases (xs : List (String × ℚ)) (m : String × ℚ) :
    (xs.foldl (fun m y => if y.2 < m.2 then y else m) m = m ∧ ∀ y ∈ xs, m.2 ≤ y.2) ∨
    (∃ l₁ r l₂, xs = l₁ ++ r :: l₂ ∧
      xs.foldl (fun m y => if y.2 < m.2 then y else m) m = r ∧ r.2 < m.2 ∧
      (∀ y ∈ l₁, r.2 < y.2) ∧ (∀ y ∈ l₂, r.2 ≤ y.2)) := by
  induction xs generalizing m with
  | nil => exact Or.inl ⟨rfl, by simp⟩
  | cons y ys ih =>
    rw [List.foldl_cons]
    by_cases hy : y.2 < m.2
    · rw [if_pos hy]
      rcases ih y with ⟨heq, hall⟩ | ⟨l₁, r, l₂, hsplit, heq, hlt, h₁, h₂⟩
      · exact Or.inr ⟨[], y, ys, rfl, heq, hy, by simp, hall⟩
      · refine Or.inr ⟨y :: l₁, r, l₂, by rw [hsplit]; rfl, heq,
          lt_trans hlt hy, ?_, h₂⟩
        intro z hz
        rcases List.mem_cons.mp hz with rfl | hz'
        · exact hlt
        · exact h₁ z hz'
    · rw [if_neg hy]
      have hmy : m.2 ≤ y.2 := not_lt.mp hy
      rcases ih m with ⟨heq, hall⟩ | ⟨l₁, r, l₂, hsplit, heq, hlt, h₁, h₂⟩
      · refine Or.inl ⟨heq, ?_⟩
        intro z hz
        rcases List.mem_cons.mp hz with rfl | hz'
        · exact hmy
        · exact hall z hz'
      · refine Or.inr ⟨y :: l₁, r, l₂, by rw [hsplit]; rfl, heq, hlt, ?_, h₂⟩
        intro z hz
        rcases List.mem_cons.mp hz with rfl | hz'
        · exact lt_of_lt_of_le hlt hmy
        · exact h₁ z hz'

/-- A successful `minBySnd` splits the list around the returned element: all
earlier elements are strictly larger, all later ones at least as large — the
returned element is the first attaining the minimum. -/
lemma minBySnd_decomp (l : List (String × ℚ)) (m : String × ℚ)
    (h : minBySnd l = some m) :
    ∃ l₁ l₂, l = l₁ ++ m :: l₂ ∧ (∀ y ∈ l₁, m.2 < y.2) ∧ (∀ y ∈ l₂, m.2 ≤ y.2) := by
  cases l with
  | nil => cases h
  | cons x xs =>
    have hm : xs.foldl (fun m y => if y.2 < m.2 then y else m) x = m := by
      simpa [minBySnd] using h
    rcases minFold_cases xs x with ⟨heq, hall⟩ | ⟨l₁, r, l₂, hsplit, heq, hlt, h₁, h₂⟩
    · obtain rfl : x = m := heq.symm.trans hm
      exact ⟨[], xs, rfl, by simp, hall⟩
    · obtain rfl : r = m := heq.symm.trans hm
      refine ⟨x :: l₁, l₂, by rw [hsplit]; rfl, ?_, h₂⟩
      intro z hz
      rcases List.mem_cons.mp hz with rfl | hz'
      · exact hlt
      · exact h₁ z hz'

/-- The element `minBySnd` returns belongs to the list. -/
lemma minBySnd_mem (l : List (String × ℚ)) (m : String × ℚ)
    (h : minBySnd l = some m) : m ∈ l := by
  obtain ⟨l₁, l₂, hsplit, -, -⟩ := minBySnd_decomp l m h
  rw [hsplit]
  exact List.mem_append_right _ (List.mem_cons_self _ _)

/-- The element `minBySnd` returns has minimal second component. -/
lemma minBySnd_le (l : List (String × ℚ)) (m : String × ℚ)
    (h : minBySnd l = some m) : ∀ y ∈ l, m.2 ≤ y.2 := by
  obtain ⟨l₁, l₂, hsplit, h₁, h₂⟩ := minBySnd_decomp l m h
  intro y hy
  rw [hsplit] at hy
  rcases List.mem_append.mp hy with hy₁ | hy₂
  · exact le_of_lt (h₁ y hy₁)
  · rcases List.mem_cons.mp hy₂ with rfl | hy₂'
    · exact le_refl _
    · exact h₂ y hy₂'

/-- Membership in the eligible-reference list. -/
lemma mem_validIndices (symbols : List String) (sc vd : String → ℕ)
    (s : String) (q : ℚ) :
    (s, q) ∈ validIndices symbols sc vd ↔
      s ∈ symbols ∧ 0 < vd s ∧ q = (sc s : ℚ) / (vd s : ℚ) := by
  unfold validIndices
  rw [List.mem_filterMap]
  constructor
  · rintro ⟨a, ha, hfa⟩
    by_cases hva : 0 < vd a
    · rw [if_pos hva] at hfa
      obtain ⟨rfl, rfl⟩ : a = s ∧ ((sc a : ℚ) / (vd a : ℚ)) = q := by
        simpa using hfa
      exact ⟨ha, hva, rfl⟩
    · rw [if_neg hva] at hfa
      cases hfa
  · rintro ⟨hs, hv, rfl⟩
    exact ⟨s, hs, by rw [if_pos hv]⟩

/-- `find?` on a list split around the first element satisfying the
predicate. -/
lemma find?_append_cons (p : String × ℚ → Bool) (m : String × ℚ)
    (l₂ : List (String × ℚ)) (hm : p m = true) :
    ∀ l₁ : List (String × ℚ), (∀ y ∈ l₁, ¬p y = true) →
      (l₁ ++ m :: l₂).find? p = some m := by
  intro l₁
  induction l₁ with
  | nil =>
    intro _
    simpa using List.find?_cons_of_pos l₂ hm
  | cons a l₁ ih =>
    intro h
    rw [List.cons_append, List.find?_cons_of_neg _ (h a (List.mem_cons_self _ _))]
    exact ih fun y hy => h y (List.mem_cons.mpr (Or.inr hy))

/-- Python's `min` over the eligible list agrees with "the first element
attaining the minimal average score in enumeration order". -/
lemma minBySnd_eq_find? (l : List (String × ℚ)) :
    minBySnd l = l.find? fun y => l.all fun z => decide (y.2 ≤ z.2) := by
  cases l with
  | nil => rfl
  | cons x xs =>
    have hm : minBySnd (x :: xs)
        = some (xs.foldl (fun m y => if y.2 < m.2 then y else m) x) := rfl
    obtain ⟨l₁, l₂, hsplit, h₁, h₂⟩ := minBySnd_decomp (x :: xs) _ hm
    rw [hm, hsplit]
    symm
    apply find?_append_cons
    · rw [List.all_eq_true]
      intro z hz
      rcases List.mem_append.mp hz with hz₁ | hz₂
      · simpa using le_of_lt (h₁ z hz₁)
      · rcases List.mem_cons.mp hz₂ with rfl | hz₂'
        · simp
        · simpa using h₂ z hz₂'
    · intro y hy hall
      rw [List.all_eq_true] at hall
      have hmm := hall _ (List.mem_append_right _ (List.mem_cons_self _ _))
      rw [decide_eq_true_eq] at hmm
      exact absurd hmm (not_le.mpr (h₁ y hy))

/-- C2: whenever a winner is returned, it is eligible (positive valid-day
count) and its average score is minimal among all eligible references; and
when no reference has any valid day in common with the subject, the
computation returns `none` — a no-match outcome, not an error. -/
theorem winner_minimal_average_or_no_match (db : CorrDB) :
    (∀ w, (calculate_correlation_for_stock db).1 = some w →
      0 < (calculate_correlation_for_stock db).2.2 w ∧
      ∀ s ∈ db.indexSymbols, 0 < (calculate_correlation_for_stock db).2.2 s →
        ((calculate_correlation_for_stock db).2.1 w : ℚ)
            / ((calculate_correlation_for_stock db).2.2 w : ℚ)
          ≤ ((calculate_correlation_for_stock db).2.1 s : ℚ)
            / ((calculate_correlation_for_stock db).2.2 s : ℚ)) ∧
    ((∀ s ∈ db.indexSymbols,
        (aggregateDays db.indexRows (stockChanges db.stockRows)).2 s = 0) →
      (calculate_correlation_for_stock db).1 = none) := by
  rcases calculate_cases db with ⟨hz, hmin⟩ | ⟨m, hmin, heq⟩
  · constructor
    · intro w hw
      rw [hz] at hw
      cases hw
    · intro _
      rw [hz]
  · have hmem := minBySnd_mem _ _ hmin
    have hm2 := (mem_validIndices db.indexSymbols _ _ m.1 m.2).mp hmem
    constructor
    · intro w hw
      rw [heq] at hw
      obtain rfl : m.1 = w := Option.some.inj hw
      rw [heq]
      refine ⟨hm2.2.1, ?_⟩
      intro s hs hvs
      have hsmem : (s, ((aggregateDays db.indexRows (stockChanges db.stockRows)).1 s : ℚ)
          / ((aggregateDays db.indexRows (stockChanges db.stockRows)).2 s : ℚ))
          ∈ validIndices db.indexSymbols
            (aggregateDays db.indexRows (stockChanges db.stockRows)).1
            (aggregateDays db.indexRows (stockChanges db.stockRows)).2 :=
        (mem_validIndices _ _ _ _ _).mpr ⟨hs, hvs, rfl⟩
      have hle := minBySnd_le _ _ hmin _ hsmem
      calc ((aggregateDays db.indexRows (stockChanges db.stockRows)).1 m.1 : ℚ)
            / ((aggregateDays db.indexRows (stockChanges db.stockRows)).2 m.1 : ℚ)
          = m.2 := hm2.2.2.symm
        _ ≤ _ := hle
    · intro hall
      exact absurd (hall m.1 hm2.1) (by omega)

/-- Witness for C2 on the fixtures: the winner I1 of `dbW` has a positive
valid-day count and its average score is at most I2's; and the no-overlap
database `dbN` yields `none`. -/
theorem winner_minimal_average_or_no_match_witness :
    0 < (calculate_correlation_for_stock dbW).2.2 "I1" ∧
    ((calculate_correlation_for_stock dbW).2.1 "I1" : ℚ)
        / ((calculate_correlation_for_stock dbW).2.2 "I1" : ℚ)
      ≤ ((calculate_correlation_for_stock dbW).2.1 "I2" : ℚ)
        / ((calculate_correlation_for_stock dbW).2.2 "I2" : ℚ) ∧
    (calculate_correlation_for_stock dbN).1 = none := by
  have h1 : (calculate_correlation_for_stock dbW).1 = some "I1" := by
    norm_num [calculate_correlation_for_stock, dbW, stockChanges, aggregateDays,
      dayStep, dayRanks, dayDifferences, rankLoop, bump, validIndices, minBySnd,
      diffLE, List.insertionSort, List.orderedInsert, List.filterMap_cons,
      List.filterMap_nil, List.foldl_cons, List.foldl_nil, List.cons_ne_nil,
      abs_of_nonneg, abs_of_nonpos]
    simp only [String.reduceEq, if_true, if_false, ite_true, ite_false,
      Nat.reduceAdd, Nat.reduceLT]
    norm_num
  have hv2 : 0 < (calculate_correlation_for_stock dbW).2.2 "I2" := by
    norm_num [calculate_correlation_for_stock, dbW, stockChanges, aggregateDays,
      dayStep, dayRanks, dayDifferences, rankLoop, bump, validIndices, minBySnd,
      diffLE, List.insertionSort, List.orderedInsert, List.filterMap_cons,
      List.filterMap_nil, List.foldl_cons, List.foldl_nil, List.cons_ne_nil,
      abs_of_nonneg, abs_of_nonpos]
    simp [bump]
  have hw := (winner_minimal_average_or_no_match dbW).1 "I1" h1
  refine ⟨hw.1, hw.2 "I2" (by simp [dbW]) hv2, ?_⟩
  apply (winner_minimal_average_or_no_match dbN).2
  intro s hs
  have hs1 : s = "I1" := by simpa [dbN] using hs
  subst hs1
  norm_num [dbN, stockChanges, aggregateDays, dayStep, dayRanks, dayDifferences,
    rankLoop, bump, List.filterMap_cons, List.filterMap_nil, List.foldl_cons,
    List.foldl_nil]

/-- C8: a reference with zero valid days is invisible to the result — it is
not the winner and does not appear in the eligible (average-scored) list. -/
theorem zero_valid_days_invisible (db : CorrDB) (w : String)
    (sc vd : String → ℕ) (z : String)
    (h : calculate_correlation_for_stock db = (some w, sc, vd)) (hz : vd z = 0) :
    w ≠ z ∧ z ∉ (validIndices db.indexSymbols sc vd).map Prod.fst := by
  rcases calculate_cases db with ⟨hz0, -⟩ | ⟨m, hmin, heq⟩
  · rw [h] at hz0
    cases hz0
  · have hwe : (some w, sc, vd)
        = (some m.1, (aggregateDays db.indexRows (stockChanges db.stockRows)).1,
          (aggregateDays db.indexRows (stockChanges db.stockRows)).2) :=
      h.symm.trans heq
    obtain ⟨hw, hsc, hvd⟩ : some w = some m.1
        ∧ sc = (aggregateDays db.indexRows (stockChanges db.stockRows)).1
        ∧ vd = (aggregateDays db.indexRows (stockChanges db.stockRows)).2 := by
      refine ⟨congrArg Prod.fst hwe, ?_, ?_⟩
      · exact congrArg (fun t => t.2.1) hwe
      · exact congrArg (fun t => t.2.2) hwe
    obtain rfl : w = m.1 := Option.some.inj hw
    have hmem := minBySnd_mem _ _ hmin
    have hm2 := (mem_validIndices db.indexSymbols _ _ m.1 m.2).mp hmem
    constructor
    · intro hwz
      rw [hwz, ← hvd] at hm2
      omega
    · intro hzin
      obtain ⟨y, hy, hyz⟩ := List.mem_map.mp hzin
      obtain ⟨y1, y2⟩ := y
      rw [hsc, hvd] at hy
      have := ((mem_validIndices _ _ _ _ _).mp hy).2.1
      dsimp at hyz
      rw [hyz, ← hvd] at this
      omega

/-- Witness for C8 on `db8`: I3 never appears in any day's ranking; the
winner is I1 ≠ I3 and I3 is absent from the eligible list. -/
theorem zero_valid_days_invisible_witness :
    "I1" ≠ "I3" ∧
    "I3" ∉ (validIndices db8.indexSymbols
      (calculate_correlation_for_stock db8).2.1
      (calculate_correlation_for_stock db8).2.2).map Prod.fst := by
  have h1 : (calculate_correlation_for_stock db8).1 = some "I1" := by
    norm_num [calculate_correlation_for_stock, db8, stockChanges, aggregateDays,
      dayStep, dayRanks, dayDifferences, rankLoop, bump, validIndices, minBySnd,
      diffLE, List.insertionSort, List.orderedInsert, List.filterMap_cons,
      List.filterMap_nil, List.foldl_cons, List.foldl_nil, List.cons_ne_nil,
      abs_of_nonneg, abs_of_nonpos]
    simp only [String.reduceEq, if_true, if_false, ite_true, ite_false,
      Nat.reduceAdd, Nat.reduceLT]
    norm_num
  have hz : (calculate_correlation_for_stock db8).2.2 "I3" = 0 := by
    norm_num [calculate_correlation_for_stock, db8, stockChanges, aggregateDays,
      dayStep, dayRanks, dayDifferences, rankLoop, bump, validIndices, minBySnd,
      diffLE, List.insertionSort, List.orderedInsert, List.filterMap_cons,
      List.filterMap_nil, List.foldl_cons, List.foldl_nil, List.cons_ne_nil,
      abs_of_nonneg, abs_of_nonpos]
    simp [bump]
  have h : calculate_correlation_for_stock db8
      = (some "I1", (calculate_correlation_for_stock db8).2.1,
        (calculate_correlation_for_stock db8).2.2) := by
    rw [← h1]
  exact zero_valid_days_invisible db8 "I1"
    (calculate_correlation_for_stock db8).2.1
    (calculate_correlation_for_stock db8).2.2 "I3" h hz

/-- C9: the computation is a pure function of the database (repeated calls
agree by definition), and the selected winner is exactly the first reference,
in the stable enumeration order of the index-symbol list, whose average score
is minimal among all eligible references — ties are broken by that fixed
order, never by unordered iteration. -/
theorem winner_is_first_minimal_average (db : CorrDB) :
    (calculate_correlation_for_stock db).1 =
      ((validIndices db.indexSymbols
          (aggregateDays db.indexRows (stockChanges db.stockRows)).1
          (aggregateDays db.indexRows (stockChanges db.stockRows)).2).find? fun y =>
        (validIndices db.indexSymbols
          (aggregateDays db.indexRows (stockChanges db.stockRows)).1
          (aggregateDays db.indexRows (stockChanges db.stockRows)).2).all fun z =>
            decide (y.2 ≤ z.2)).map Prod.fst := by
  rw [← minBySnd_eq_find?]
  rcases calculate_cases db with ⟨hz, hmin⟩ | ⟨m, hmin, heq⟩
  · rw [hz, hmin]
    rfl
  · rw [heq, hmin]
    rfl

/-! ## Batch behaviour and the result merge -/

/-- The year loop ignores years beyond the current calendar year: filtering
them out beforehand does not change anything — in particular skipped years
never consult the store and never contribute a result. -/
lemma processYears_filter (env : BatchEnv) (stock : StockRec) (ys : List ℤ)
    (acc : List (String × String × ℤ × String)) :
    processYears env stock ys acc =
      processYears env stock (ys.filter fun y => decide (y ≤ env.currentYear)) acc := by
  induction ys generalizing acc with
  | nil => rfl
  | cons y ys ih =>
    by_cases hy : y > env.currentYear
    · have hskip : processYears env stock (y :: ys) acc
          = processYears env stock ys acc := by
        rw [processYears, if_pos hy]
      have hfilter : (y :: ys).filter (fun y => decide (y ≤ env.currentYear))
          = ys.filter fun y => decide (y ≤ env.currentYear) := by
        apply List.filter_cons_of_neg
        simp only [decide_eq_true_eq]
        omega
      rw [hskip, hfilter]
      exact ih acc
    · have hkeep : (y :: ys).filter (fun y => decide (y ≤ env.currentYear))
          = y :: ys.filter fun y => decide (y ≤ env.currentYear) := by
        apply List.filter_cons_of_pos
        simp only [decide_eq_true_eq]
        omega
      rw [hkeep]
      simp only [processYears]
      rw [if_neg hy, if_neg hy]
      cases env.lookup stock.symbol y with
      | error e => rfl
      | ok db =>
        dsimp only
        rcases hc : calculate_correlation_for_stock db with ⟨b, sc, vd⟩
        cases b with
        | none => exact ih acc
        | some best => exact ih (acc ++ [(stock.symbol, stock.name, y, best)])

/-- C6: work items with a requested year strictly greater than the current
calendar year are skipped: dropping those years from every item leaves the
batch result unchanged, for every store — in particular a skipped pair never
invokes the store, raises nothing and contributes no result triple. -/
theorem future_years_are_skipped (env : BatchEnv)
    (batch : List (StockRec × List ℤ × Bool)) :
    process_stock_batch env batch =
      process_stock_batch env (batch.map fun it =>
        (it.1, it.2.1.filter fun y => decide (y ≤ env.currentYear), it.2.2)) := by
  unfold process_stock_batch
  have key : ∀ (bs : List (StockRec × List ℤ × Bool))
      (init : List (String × String × ℤ × String)),
      processBatchAux env bs init =
        processBatchAux env (bs.map fun it =>
          (it.1, it.2.1.filter fun y => decide (y ≤ env.currentYear), it.2.2)) init := by
    intro bs
    induction bs with
    | nil => intro init; rfl
    | cons b rest ih =>
      intro init
      rw [List.map_cons]
      simp only [processBatchAux]
      rw [← processYears_filter]
      cases processYears env b.1 b.2.1 init with
      | error e => rfl
      | ok acc' => exact ih acc'
  exact key batch []

/-- Witness for C6 at a concrete batch: an item requesting 2025 and 2023
against current year 2024 behaves exactly as the item requesting 2023
alone. -/
theorem future_years_are_skipped_witness :
    process_stock_batch envC5 batchC6 =
      process_stock_batch envC5 (batchC6.map fun it =>
        (it.1, it.2.1.filter fun y => decide (y ≤ envC5.currentYear), it.2.2)) :=
  future_years_are_skipped envC5 batchC6

/-- C5 counterexample: exceptions are not caught at the orchestrator
boundary.  In a batch [S1, S2, S3] where only S2's store lookup raises, both
S1 alone and S3 alone compute a winner, yet the full batch run returns the
raised error: the exception propagates out of `process_stock_batch` and even
S1's already-computed result is lost, contradicting the claim that the other
pairs of the batch still produce their results. -/
theorem batch_isolation_counterexample :
    process_stock_batch envC5 [(⟨"S1", "Stock One"⟩, [2023], false)]
        = .ok [("S1", "Stock One", 2023, "I1")] ∧
    process_stock_batch envC5 [(⟨"S3", "Stock Three"⟩, [2023], false)]
        = .ok [("S3", "Stock Three", 2023, "I1")] ∧
    process_stock_batch envC5 batchC5 = .error "boom" := by
  have h1 : (calculate_correlation_for_stock dbW).1 = some "I1" := by
    norm_num [calculate_correlation_for_stock, dbW, stockChanges, aggregateDays,
      dayStep, dayRanks, dayDifferences, rankLoop, bump, validIndices, minBySnd,
      diffLE, List.insertionSort, List.orderedInsert, List.filterMap_cons,
      List.filterMap_nil, List.foldl_cons, List.foldl_nil, List.cons_ne_nil,
      abs_of_nonneg, abs_of_nonpos]
    simp only [String.reduceEq, if_true, if_false, ite_true, ite_false,
      Nat.reduceAdd, Nat.reduceLT]
    norm_num
  rcases hW : calculate_correlation_for_stock dbW with ⟨b, sc, vd⟩
  rw [hW] at h1
  dsimp only at h1
  subst h1
  refine ⟨?_, ?_, ?_⟩ <;>
    simp [process_stock_batch, processBatchAux, processYears, envC5, batchC5, hW]

/-- C5 amended: when the store lookup for the first non-skipped
(subject, year) pair raises, `process_stock_batch` returns that error — the
exception propagates out of the batch, no sibling results are returned. -/
theorem failing_lookup_aborts_batch (env : BatchEnv) (stock : StockRec)
    (b : Bool) (y : ℤ) (ys : List ℤ) (rest : List (StockRec × List ℤ × Bool))
    (e : String) (hy : ¬y > env.currentYear)
    (he : env.lookup stock.symbol y = .error e) :
    process_stock_batch env ((stock, y :: ys, b) :: rest) = .error e := by
  have hp : processYears env stock (y :: ys) [] = Except.error e := by
    rw [processYears, if_neg hy, he]
  rw [process_stock_batch, processBatchAux, hp]

/-- Witness for the amended C5: with S2 (whose lookup raises) first in the
batch, the batch run returns the error. -/
theorem failing_lookup_aborts_batch_witness :
    process_stock_batch envC5
        [(⟨"S2", "Stock Two"⟩, [2023], false),
         (⟨"S3", "Stock Three"⟩, [2023], false)] = .error "boom" :=
  failing_lookup_aborts_batch envC5 ⟨"S2", "Stock Two"⟩ false 2023 []
    [(⟨"S3", "Stock Three"⟩, [2023], false)] "boom" (by decide)
    (by simp [envC5])

/-- C7: the merge only overwrites the stored field of pairs for which a
result triple was computed; every other (symbol, year) pair keeps its prior
stored value. -/
theorem merge_leaves_other_pairs_untouched (stockExists : String → Bool)
    (store : String → ℤ → Option String)
    (results : List (String × String × ℤ × String)) (s : String) (y : ℤ)
    (h : ∀ r ∈ results, ¬(r.1 = s ∧ r.2.2.1 = y)) :
    merge_results stockExists store results s y = store s y := by
  induction results generalizing store with
  | nil => rfl
  | cons r rs ih =>
    have hrest : ∀ q ∈ rs, ¬(q.1 = s ∧ q.2.2.1 = y) :=
      fun q hq => h q (List.mem_cons.mpr (Or.inr hq))
    have hstep : merge_results stockExists store (r :: rs) s y
        = merge_results stockExists
            (if stockExists r.1
              then fun s' y' => if s' = r.1 ∧ y' = r.2.2.1 then some r.2.2.2 else store s' y'
              else store) rs s y := rfl
    rw [hstep, ih _ hrest]
    by_cases hex : stockExists r.1
    · rw [if_pos hex, if_neg]
      intro hc
      exact h r (List.mem_cons_self _ _) ⟨hc.1.symm, hc.2.symm⟩
    · rw [if_neg hex]

/-- Witness for C7: merging the fixture results (which never touch the pair
(S9, 2023)) leaves the previously stored value of that pair in place. -/
theorem merge_leaves_other_pairs_untouched_witness :
    merge_results (fun _ => true) storeC7 resultsC7 "S9" 2023
      = storeC7 "S9" 2023 :=
  merge_leaves_other_pairs_untouched (fun _ => true) storeC7 resultsC7
    "S9" 2023 (by decide)

end CorrelationCalculator
